/-
  Verification of the `typeset` line-breaking engine and layout traversal.

  Shallow embedding of `src/src/linebreaks.cpp` and
  `src/include/tex/layoutreader.h` (namespace `tex`).  Floating-point
  scalars are modelled as rationals; C++ `int` values as `Int`.
-/
import Mathlib

namespace Typeset

/-- Glue order, as in `tex/glue.h` (declared order Normal, Fil, Fill, Filll;
see the spec glossary: "priority level (Normal < Fil < Fill < Filll)"). -/
inductive GlueOrder where
  | Normal
  | Fil
  | Fill
  | Filll
deriving DecidableEq, Repr

/-- Modelled from the spec: totals value with "per-order accumulators
`(normal, fil, fill, filll)`" (spec §4.A); the concrete `GlueShrink` /
`GlueStretch` structs live in `tex/glue.h`, which is not under `src/`. -/
structure GlueTotals where
  normal : ℚ
  fil : ℚ
  fill : ℚ
  filll : ℚ
deriving DecidableEq, Repr

def GlueTotals.zero : GlueTotals := ⟨0, 0, 0, 0⟩

instance : Add GlueTotals :=
  ⟨fun a b => ⟨a.normal + b.normal, a.fil + b.fil, a.fill + b.fill, a.filll + b.filll⟩⟩

instance : Sub GlueTotals :=
  ⟨fun a b => ⟨a.normal - b.normal, a.fil - b.fil, a.fill - b.fill, a.filll - b.filll⟩⟩

/-- Modelled from the spec: "an `order()` returning the highest non-zero"
accumulator (spec §4.A). -/
def GlueTotals.order (t : GlueTotals) : GlueOrder :=
  if t.filll ≠ 0 then .Filll
  else if t.fill ≠ 0 then .Fill
  else if t.fil ≠ 0 then .Fil
  else .Normal

/-- Add an amount to the accumulator selected by a glue order. -/
def GlueTotals.addAt (t : GlueTotals) (o : GlueOrder) (v : ℚ) : GlueTotals :=
  match o with
  | .Normal => { t with normal := t.normal + v }
  | .Fil => { t with fil := t.fil + v }
  | .Fill => { t with fill := t.fill + v }
  | .Filll => { t with filll := t.filll + v }

/-- Glue node payload: nominal space plus shrink/stretch components with
their orders (`tex/glue.h`, accessors `space()`, `shrink()`, `stretch()`,
`shrinkOrder()`, `stretchOrder()`). -/
structure Glue where
  space : ℚ
  shrink : ℚ
  stretch : ℚ
  shrinkOrder : GlueOrder
  stretchOrder : GlueOrder
deriving DecidableEq, Repr

/-- The repository's positional glue constructor
`Glue(space, shrink, stretch, shrinkOrder, stretchOrder)`.
Modelled from the spec: §4.A lists the constructor inputs
`(space, stretch, shrink, stretch_order, shrink_order)`; the positional
order used here (shrink before stretch, mirroring
`Glue::accumulate(shrink, stretch)` in `linebreaks.cpp`) is fixed by the
§3 invariant that `parfillskip`, constructed in `Paragraph::Paragraph` as
`Glue(0.f, 0.f, 1.f, GlueOrder::Normal, GlueOrder::Fil)`, is a
"parfillskip glue (fil stretch)". -/
def Glue.make (space shrink stretch : ℚ)
    (shrinkOrder stretchOrder : GlueOrder) : Glue :=
  ⟨space, shrink, stretch, shrinkOrder, stretchOrder⟩

/-- Modelled from the spec: "accumulate a glue into a pair of totals
`(shrink_totals, stretch_totals)`" (spec §4.A), each amount added to the
accumulator of its order (`Glue::accumulate` in `tex/glue.h`). -/
def Glue.accumulate (g : Glue) (sh st : GlueTotals) : GlueTotals × GlueTotals :=
  (sh.addAt g.shrinkOrder g.shrink, st.addAt g.stretchOrder g.stretch)

/-- `Penalty::Infinity` — the sentinel for an infinite penalty
(spec §3: "represented by a large sentinel, nominally 10000"). -/
def Penalty.Infinity : Int := 10000

/-- A node of a horizontal list, as consumed by the line breaker: only the
width of a box matters there (`node->as<Box>().width()`). -/
inductive Node where
  | box (width : ℚ)
  | glue (g : Glue)
  | kern (space : ℚ)
  | penalty (value : Int)
deriving DecidableEq, Repr

def Node.isBox : Node → Bool
  | .box _ => true
  | _ => false

def Node.isGlue : Node → Bool
  | .glue _ => true
  | _ => false

def Node.isKern : Node → Bool
  | .kern _ => true
  | _ => false

def Node.isPenalty : Node → Bool
  | .penalty _ => true
  | _ => false

/-- `Paragraph::isDiscardable`. -/
def isDiscardable (n : Node) : Bool :=
  n.isKern || n.isGlue || n.isPenalty

/-- `Paragraph::isForcedLinebreak`: a penalty of value `≤ -Penalty::Infinity`. -/
def isForcedLinebreak (n : Node) : Bool :=
  match n with
  | .penalty v => v ≤ -Penalty.Infinity
  | _ => false

/-- `Paragraph::isForbiddenLinebreak`: a penalty of value `≥ Penalty::Infinity`. -/
def isForbiddenLinebreak (n : Node) : Bool :=
  match n with
  | .penalty v => Penalty.Infinity ≤ v
  | _ => false

/-- One row of a parshape specification: an indent and a line length. -/
structure ParshapeItem where
  indent : ℚ
  length : ℚ
deriving DecidableEq, Repr

instance : Inhabited ParshapeItem := ⟨⟨0, 0⟩⟩

/-- `Paragraph::Totals`: running width plus shrink and stretch totals. -/
structure Totals where
  width : ℚ
  shrink : GlueTotals
  stretch : GlueTotals
deriving DecidableEq, Repr

/-- `Paragraph::Totals::Totals()`: zero-initialised. -/
def Totals.zero : Totals := ⟨0, .zero, .zero⟩

/-- Fitness classes in declared order Tight, Decent, Loose, VeryLoose
(spec §4.E; the declaration itself is in `tex/linebreaks.h`). -/
inductive FitnessClass where
  | Tight
  | Decent
  | Loose
  | VeryLoose
deriving DecidableEq, Repr

/-- The integral value of a fitness class (`static_cast<int>(fc)`). -/
def FitnessClass.toInt : FitnessClass → Int
  | .Tight => 0
  | .Decent => 1
  | .Loose => 2
  | .VeryLoose => 3

/-- The `Paragraph` configuration record (fields of `tex/linebreaks.h`,
spec §4.E); only the fields the line breaker reads are modelled. -/
structure Paragraph where
  hsize : ℚ
  tolerance : ℚ
  linepenalty : Int
  adjdemerits : Int
  hangindent : ℚ
  hangafter : Int
  parshape : List ParshapeItem
  leftskip : Glue
  rightskip : Glue
  parfillskip : Glue
deriving DecidableEq, Repr

/-- The skip defaults installed by `Paragraph::Paragraph()`:
`leftskip = rightskip = Glue(0,0,0)` and
`parfillskip = Glue(0, 0, 1, Normal, Fil)`. -/
def defaultLeftskip : Glue := Glue.make 0 0 0 .Normal .Normal

def defaultParfillskip : Glue := Glue.make 0 0 1 .Normal .Fil

/-- `Paragraph::hangindentAppliesToLine`. -/
def hangindentAppliesToLine (cfg : Paragraph) (n : Nat) : Bool :=
  (cfg.hangafter < 0 && (n : Int) < -cfg.hangafter)
    || (0 ≤ cfg.hangafter && cfg.hangafter ≤ (n : Int))

/-- `Paragraph::linelength`. -/
def linelength (cfg : Paragraph) (n : Nat) : ℚ :=
  match cfg.parshape with
  | [] =>
    if cfg.hangindent ≠ 0 && hangindentAppliesToLine cfg n then
      cfg.hsize - |cfg.hangindent|
    else
      cfg.hsize
  | p :: ps =>
    if n ≥ (p :: ps).length then
      ((p :: ps).getLast (by simp)).length
    else
      ((p :: ps).getD n p).length

/-- `Paragraph::computeBadness`: `min((int)(100·|r|³), 10000)`. -/
def computeBadness (glueSetRatio : ℚ) : Int :=
  min (Int.floor (100 * |glueSetRatio| ^ 3)) 10000

/-- `Paragraph::getFitnessClass(float)`. -/
def getFitnessClass (glueSetRatio : ℚ) : FitnessClass :=
  if glueSetRatio < -(1 / 2) then .Tight
  else if glueSetRatio ≤ 1 / 2 then .Decent
  else if glueSetRatio ≤ 1 then .Loose
  else .VeryLoose

/-- `Paragraph::checkCompatibility`: fitness classes within one step. -/
def checkCompatibility (a b : FitnessClass) : Bool :=
  |a.toInt - b.toInt| ≤ 1

/-- `Paragraph::computeDemerits`. -/
def computeDemerits (l : Int) (b : Int) (p : Int) : Int :=
  if 0 ≤ p ∧ p < 10000 then (l + b) ^ 2 + p ^ 2
  else if -10000 < p ∧ p < 0 then (l + b) ^ 2 - p ^ 2
  else (l + b) ^ 2

/-- `Paragraph::shrinkTotals(lskip, rskip)`: both skips accumulated into
fresh shrink totals. -/
def shrinkTotals (lskip rskip : Glue) : GlueTotals :=
  let t1 := (lskip.accumulate GlueTotals.zero GlueTotals.zero).1
  (rskip.accumulate t1 GlueTotals.zero).1

/-- `Paragraph::stretchTotals(lskip, rskip)`: both skips accumulated into
fresh stretch totals. -/
def stretchTotals (lskip rskip : Glue) : GlueTotals :=
  let t1 := (lskip.accumulate GlueTotals.zero GlueTotals.zero).2
  (rskip.accumulate t1 GlueTotals.zero).2

/-- The breakpoint record of the line breaker
(`Paragraph::Breakpoint`); `position` is the index of the hlist node at
which the break occurs (`hlist.begin()` being index 0), `previous` the
back-pointer along the chosen chain. -/
inductive Breakpoint where
  | mk (position : Nat) (demerits : Int) (line : Nat)
       (fitness : FitnessClass) (totals : Totals)
       (previous : Option Breakpoint)

def Breakpoint.position : Breakpoint → Nat
  | .mk p _ _ _ _ _ => p

def Breakpoint.demerits : Breakpoint → Int
  | .mk _ d _ _ _ _ => d

def Breakpoint.line : Breakpoint → Nat
  | .mk _ _ l _ _ _ => l

def Breakpoint.fitness : Breakpoint → FitnessClass
  | .mk _ _ _ f _ _ => f

def Breakpoint.totals : Breakpoint → Totals
  | .mk _ _ _ _ t _ => t

def Breakpoint.previous : Breakpoint → Option Breakpoint
  | .mk _ _ _ _ _ p => p

def Breakpoint.decEq : (a b : Breakpoint) → Decidable (a = b)
  | .mk p d l f t pr, .mk p2 d2 l2 f2 t2 pr2 =>
    have hprev : Decidable (pr = pr2) :=
      match pr, pr2 with
      | none, none => isTrue rfl
      | some x, some y =>
        match Breakpoint.decEq x y with
        | isTrue h => isTrue (by rw [h])
        | isFalse h => isFalse (fun he => h (by injection he))
      | none, some _ => isFalse (fun he => by injection he)
      | some _, none => isFalse (fun he => by injection he)
    if h : p = p2 ∧ d = d2 ∧ l = l2 ∧ f = f2 ∧ t = t2 ∧ pr = pr2 then
      isTrue (by
        obtain ⟨h1, h2, h3, h4, h5, h6⟩ := h
        subst h1; subst h2; subst h3; subst h4; subst h5; subst h6; rfl)
    else
      isFalse (fun he => by
        injection he with e1 e2 e3 e4 e5 e6
        exact h ⟨e1, e2, e3, e4, e5, e6⟩)

instance : DecidableEq Breakpoint := Breakpoint.decEq

/-- `Paragraph::computeGlueRatio`. -/
def computeGlueRatio (cfg : Paragraph) (sum : Totals) (active : Breakpoint)
    (current_line : Nat) : ℚ :=
  let width := sum.width - active.totals.width
    - cfg.leftskip.space - cfg.rightskip.space
  let line_length := linelength cfg current_line
  if width < line_length then
    let diff := sum.stretch + stretchTotals cfg.leftskip cfg.rightskip
      - active.totals.stretch
    if diff.order ≠ .Normal then 0
    else if 0 < diff.normal then (line_length - width) / diff.normal
    else (Penalty.Infinity : ℚ)
  else if line_length < width then
    let diff := sum.shrink + shrinkTotals cfg.leftskip cfg.rightskip
      - active.totals.shrink
    if diff.order ≠ .Normal then 0
    else if 0 < diff.normal then (line_length - width) / diff.normal
    else (Penalty.Infinity : ℚ)
  else 0

/-- `Paragraph::squeezeDiscardables`, one loop step at a time; `first` is
true exactly when the iterator still equals `breakpointpos` (so the
`it != breakpointpos` side-condition of the stopping test is false). -/
def squeezeDiscardablesAux (sum : Totals) (first : Bool) : List Node → Totals
  | [] => sum
  | n :: rest =>
    match n with
    | .glue g =>
      let acc := g.accumulate sum.shrink sum.stretch
      squeezeDiscardablesAux ⟨sum.width + g.space, acc.1, acc.2⟩ false rest
    | .kern s => squeezeDiscardablesAux { sum with width := sum.width + s } false rest
    | .box _ => sum
    | .penalty v =>
      if !first && isForcedLinebreak (.penalty v) then sum
      else squeezeDiscardablesAux sum false rest

/-- `Paragraph::squeezeDiscardables(sum, breakpointpos, end)` on the list
suffix `[breakpointpos, end)`. -/
def squeezeDiscardables (sum : Totals) (fromBreak : List Node) : Totals :=
  squeezeDiscardablesAux sum true fromBreak

/-- The candidate record of `tryBreak` (`struct Candidate`), with its
`std::numeric_limits<int>::max()` sentinel demerits. -/
structure Candidate where
  active : Option Breakpoint
  demerits : Int

def intMax : Int := 2147483647

def Candidate.init : Candidate := ⟨none, intMax⟩

/-- The four per-fitness-class candidate slots of `tryBreak`. -/
structure Candidates where
  tight : Candidate
  decent : Candidate
  loose : Candidate
  veryLoose : Candidate

def Candidates.init : Candidates := ⟨.init, .init, .init, .init⟩

def Candidates.get (cs : Candidates) : FitnessClass → Candidate
  | .Tight => cs.tight
  | .Decent => cs.decent
  | .Loose => cs.loose
  | .VeryLoose => cs.veryLoose

def Candidates.set (cs : Candidates) : FitnessClass → Candidate → Candidates
  | .Tight, c => { cs with tight := c }
  | .Decent, c => { cs with decent := c }
  | .Loose, c => { cs with loose := c }
  | .VeryLoose, c => { cs with veryLoose := c }

/-- The demerits of a line candidate examined by `tryBreak`: base demerits
from `computeDemerits`, plus `adjdemerits` on a fitness incompatibility,
plus the active breakpoint's accumulated demerits. -/
def candidateDemerits (cfg : Paragraph) (ratio : ℚ) (node : Node)
    (active : Breakpoint) : Int :=
  let badness := computeBadness ratio
  let p : Int := match node with | .penalty v => v | _ => 0
  let d := computeDemerits cfg.linepenalty badness p
  let d := if !checkCompatibility (getFitnessClass ratio) active.fitness then
      d + cfg.adjdemerits else d
  d + active.demerits

/-- One iteration of `tryBreak`'s inner `while` loop on the active
breakpoint `b` of the group of line `current_line`: the first component
is `[b]` when `b` stays active and `[]` when it is erased
(`ratio < -1` or a forced break at the node); the second is the candidate
array after the possible best-per-fitness-class update. -/
def processActive (cfg : Paragraph) (node : Node) (sum : Totals)
    (current_line : Nat) (b : Breakpoint) (cands : Candidates) :
    List Breakpoint × Candidates :=
  let ratio := computeGlueRatio cfg sum b current_line
  let kept := if ratio < -1 || isForcedLinebreak node then [] else [b]
  let cands' :=
    if -1 ≤ ratio ∧ ratio ≤ cfg.tolerance then
      let d := candidateDemerits cfg ratio node b
      let fc := getFitnessClass ratio
      if d < (cands.get fc).demerits then cands.set fc ⟨some b, d⟩ else cands
    else cands
  (kept, cands')

/-- The insertion loop at the end of `tryBreak`'s outer `while` iteration:
for each fitness class in order, a new breakpoint at position `pos` is
created from the best candidate of the class when its demerits are below
the `int` sentinel; its line is its predecessor's plus one. -/
def newBreakpoints (pos : Nat) (localSum : Totals) (cs : Candidates) :
    List Breakpoint :=
  [FitnessClass.Tight, .Decent, .Loose, .VeryLoose].foldl
    (fun acc fc =>
      let c := cs.get fc
      match c.active with
      | some a =>
        if c.demerits < intMax then
          acc ++ [Breakpoint.mk pos c.demerits (a.line + 1) fc localSum (some a)]
        else acc
      | none => acc)
    []

/-- The two nested `while` loops of `tryBreak`, rendered as one
left-to-right scan of the active list carrying the current group's line
number and candidate array: while the scanned breakpoint continues the
current group, it is processed in place; at a group boundary (and at the
end of the list) the group's new breakpoints are inserted — exactly where
the iterator `active` stands in the C++ loop — and the next group starts
afresh from `Candidates.init`. -/
def tryBreakLoop (cfg : Paragraph) (node : Node) (atBreak : List Node)
    (pos : Nat) (sum : Totals) (current_line : Nat) (cands : Candidates) :
    List Breakpoint → List Breakpoint
  | [] => newBreakpoints pos (squeezeDiscardables sum atBreak) cands
  | b :: rest =>
    if b.line = current_line then
      let st := processActive cfg node sum current_line b cands
      st.1 ++ tryBreakLoop cfg node atBreak pos sum current_line st.2 rest
    else
      newBreakpoints pos (squeezeDiscardables sum atBreak) cands ++
        (let st := processActive cfg node sum b.line b Candidates.init
         st.1 ++ tryBreakLoop cfg node atBreak pos sum b.line st.2 rest)

/-- `Paragraph::tryBreak`.  `pos` is the index of `it` in the hlist;
`atBreak` is the list suffix starting at `it` (so its head is `*it`). -/
def tryBreak (cfg : Paragraph) (node : Node) (atBreak : List Node) (pos : Nat)
    (sum : Totals) : List Breakpoint → List Breakpoint
  | [] => []
  | b :: rest =>
    let st := processActive cfg node sum b.line b Candidates.init
    st.1 ++ tryBreakLoop cfg node atBreak pos sum b.line st.2 rest

/-- The break-attempt condition of the scanning loop of
`computeFeasibleBreakpoints`: `tryBreak` is invoked at a node exactly when
it is a glue preceded by a box (`prevnode != hlist.end() &&
(*prevnode)->isBox()`), or a penalty that is not forbidden. -/
def shouldAttempt (prev : Option Node) (node : Node) : Bool :=
  match node with
  | .glue _ => (match prev with | some p => p.isBox | none => false)
  | .penalty v => !isForbiddenLinebreak (.penalty v)
  | _ => false

/-- The per-node state transition of the scanning loop of
`computeFeasibleBreakpoints`: carried state is the previous node (if any),
the index of the current node, the running totals and the active list. -/
def cfbStep (cfg : Paragraph) (prev : Option Node) (i : Nat) (sum : Totals)
    (acts : List Breakpoint) (node : Node) (rest : List Node) :
    Totals × List Breakpoint :=
  let acts' := if shouldAttempt prev node then
      tryBreak cfg node (node :: rest) i sum acts
    else acts
  match node with
  | .box w => ({ sum with width := sum.width + w }, acts')
  | .glue g =>
    let acc := g.accumulate sum.shrink sum.stretch
    (⟨sum.width + g.space, acc.1, acc.2⟩, acts')
  | .kern s => ({ sum with width := sum.width + s }, acts')
  | .penalty _ => (sum, acts')

/-- The positions at which the scanning loop invokes `tryBreak`, one flag
per node of the scanned list. -/
def attemptFlags (prev : Option Node) : List Node → List Bool
  | [] => []
  | n :: rest => shouldAttempt prev n :: attemptFlags (some n) rest

/-- The scanning loop of `Paragraph::computeFeasibleBreakpoints`. -/
def cfbLoop (cfg : Paragraph) : Option Node → Nat → Totals → List Breakpoint →
    List Node → List Breakpoint
  | _, _, _, acts, [] => acts
  | prev, i, sum, acts, node :: rest =>
    let st := cfbStep cfg prev i sum acts node rest
    cfbLoop cfg (some node) (i + 1) st.1 st.2 rest

/-- The initial active breakpoint installed by
`computeFeasibleBreakpoints`: position `hlist.begin()`, zero demerits,
line 0, `Tight` fitness, zero totals, no predecessor. -/
def initialBreakpoint : Breakpoint :=
  .mk 0 0 0 .Tight Totals.zero none

/-- `Paragraph::computeFeasibleBreakpoints`. -/
def computeFeasibleBreakpoints (cfg : Paragraph) (hlist : List Node) :
    List Breakpoint :=
  cfbLoop cfg none 0 Totals.zero [initialBreakpoint] hlist

/-- `*candidates.begin()` then a scan keeping the strictly smaller
demerits: the selection loop of `computeBreakpoints(candidates)`. -/
def bestBreakpoint (b : Breakpoint) : List Breakpoint → Breakpoint
  | [] => b
  | x :: rest => bestBreakpoint (if x.demerits < b.demerits then x else b) rest

/-- The back-pointer walk plus reversal of
`computeBreakpoints(std::shared_ptr<Breakpoint>)`: the chain from the
root breakpoint (no predecessor) to `b`, in forward order. -/
def Breakpoint.chain : Breakpoint → List Breakpoint
  | .mk p d l f t none => [.mk p d l f t none]
  | .mk p d l f t (some prev) => prev.chain ++ [.mk p d l f t (some prev)]

/-- Outcome of a C++ call that either returns normally or throws. -/
inductive CppResult (α : Type) where
  | ok (value : α)
  | thrown (what : String)

/-- `Paragraph::computeBreakpoints(const List&)`: the feasible-breakpoint
pass, then `throw std::runtime_error{"Failed"}` when no active breakpoint
survives, else the chain of the minimum-demerits survivor. -/
def computeBreakpoints (cfg : Paragraph) (hlist : List Node) :
    CppResult (List Breakpoint) :=
  match computeFeasibleBreakpoints cfg hlist with
  | [] => .thrown "Failed"
  | b :: rest => .ok (bestBreakpoint b rest).chain

/-- `Paragraph::prepare`: drop a final glue, then append the terminating
infinite penalty, `parfillskip`, and forced-break penalty.
`infinitePenalty()` and `penalty(...)` are node factories from
`tex/penalty.h`; modelled from the spec: the list is terminated by an
"infinite-positive penalty" and an "infinite-negative penalty" (§3). -/
def prepare (cfg : Paragraph) (hlist : List Node) : List Node :=
  if hlist.isEmpty then hlist
  else
    let trimmed :=
      match hlist.getLast? with
      | some n => if n.isGlue then hlist.dropLast else hlist
      | none => hlist
    trimmed ++ [.penalty Penalty.Infinity, .glue cfg.parfillskip,
                .penalty (-Penalty.Infinity)]

/-- The claim's reading of `squeezeDiscardables`: accumulate glue and kern
from the starting position, stopping at the first box node or at a forced
break — including a forced break at the starting position itself. -/
def squeezeDiscardablesClaim (sum : Totals) : List Node → Totals
  | [] => sum
  | n :: rest =>
    match n with
    | .glue g =>
      let acc := g.accumulate sum.shrink sum.stretch
      squeezeDiscardablesClaim ⟨sum.width + g.space, acc.1, acc.2⟩ rest
    | .kern s => squeezeDiscardablesClaim { sum with width := sum.width + s } rest
    | .box _ => sum
    | .penalty v =>
      if isForcedLinebreak (.penalty v) then sum
      else squeezeDiscardablesClaim sum rest

/-- The number of nodes `squeezeDiscardables` scans before stopping: it
stops at a box, or at a forced break strictly after the starting position
(`first = true` at the starting position). -/
def squeezeScanCount (first : Bool) : List Node → Nat
  | [] => 0
  | n :: rest =>
    if n.isBox || (!first && isForcedLinebreak n) then 0
    else squeezeScanCount false rest + 1

/-- The contribution of a scanned prefix: the space of every glue node
(with its stretch and shrink accumulated) and the space of every kern
node; boxes and penalties contribute nothing. -/
def discardableContrib (sum : Totals) : List Node → Totals
  | [] => sum
  | .glue g :: rest =>
    let acc := g.accumulate sum.shrink sum.stretch
    discardableContrib ⟨sum.width + g.space, acc.1, acc.2⟩ rest
  | .kern s :: rest => discardableContrib { sum with width := sum.width + s } rest
  | .box _ :: rest => discardableContrib sum rest
  | .penalty _ :: rest => discardableContrib sum rest

/-- Well-formedness of the back-chain of a breakpoint: the root of the
chain is at `hlist.begin()` with line 0 (the initial breakpoint), and each
link increments the line number by one. -/
def goodChain : Breakpoint → Prop
  | .mk pos _ line _ _ none => pos = 0 ∧ line = 0
  | .mk _ _ line _ _ (some prev) => line = prev.line + 1 ∧ goodChain prev

/-! Layout traversal (`tex/layoutreader.h`).  A box tree node: `rule` and
`charbox` are the non-list boxes (a `Rule` and any other leaf box), `hbox`
and `vbox` the list boxes with their solved glue ratio and order and their
shift amount; `lglue` and `lkern` the non-box list entries. -/

structure Pos where
  x : ℚ
  y : ℚ
deriving DecidableEq, Repr

inductive LNode where
  | rule (width height depth : ℚ)
  | charbox (width height depth : ℚ)
  | hbox (width height depth shift glueRatio : ℚ) (glueOrder : GlueOrder)
      (children : List LNode)
  | vbox (width height depth shift glueRatio : ℚ) (glueOrder : GlueOrder)
      (children : List LNode)
  | lglue (g : Glue)
  | lkern (space : ℚ)

/-- The cursor advance contributed by a glue child of a list box with
solved ratio `r` and order `o`: the glue's space, plus the ratio times the
shrink (when `r < 0`) or stretch (otherwise) component whose order matches
the box's. -/
def glueAdvance (r : ℚ) (o : GlueOrder) (g : Glue) : ℚ :=
  g.space +
    (if r < 0 then (if o = g.shrinkOrder then r * g.shrink else 0)
     else (if o = g.stretchOrder then r * g.stretch else 0))

mutual

/-- `read_hbox_full(reader, layout, pos)`, instrumented to return the
sequence of `(box, position)` visitor calls in order. -/
def readHBoxFull : LNode → Pos → List (LNode × Pos)
  | .hbox w h d sh r o cs, p =>
    (LNode.hbox w h d sh r o cs, p) :: visitHList r o p.x p.y cs
  | _, _ => []

/-- `read_vbox_full(reader, layout, pos)`: the box is visited at `pos`,
then the vertical cursor starts at `pos.y - height`. -/
def readVBoxFull : LNode → Pos → List (LNode × Pos)
  | .vbox w h d sh r o cs, p =>
    (LNode.vbox w h d sh r o cs, p) :: visitVList r o p.x (p.y - h) cs
  | _, _ => []

/-- The child loop of `read_hbox_full`: `x` advances by box widths, kern
spaces and ratio-adjusted glue; a list box descends at the shifted
baseline `y + shiftAmount` and a non-list box is visited at the current
position. -/
def visitHList (r : ℚ) (o : GlueOrder) (x y : ℚ) : List LNode → List (LNode × Pos)
  | [] => []
  | n :: rest =>
    match n with
    | .rule w h d =>
      (LNode.rule w h d, ⟨x, y⟩) :: visitHList r o (x + w) y rest
    | .charbox w h d =>
      (LNode.charbox w h d, ⟨x, y⟩) :: visitHList r o (x + w) y rest
    | .hbox w h d sh r2 o2 cs =>
      readHBoxFull (.hbox w h d sh r2 o2 cs) ⟨x, y + sh⟩
        ++ visitHList r o (x + w) y rest
    | .vbox w h d sh r2 o2 cs =>
      readVBoxFull (.vbox w h d sh r2 o2 cs) ⟨x, y + sh⟩
        ++ visitHList r o (x + w) y rest
    | .lkern s => visitHList r o (x + s) y rest
    | .lglue g => visitHList r o (x + glueAdvance r o g) y rest

/-- The child loop of `read_vbox_full`: `y` advances by the child's height
before its visit and by its depth after; a list box descends at
`x + shiftAmount`. -/
def visitVList (r : ℚ) (o : GlueOrder) (x y : ℚ) : List LNode → List (LNode × Pos)
  | [] => []
  | n :: rest =>
    match n with
    | .rule w h d =>
      (LNode.rule w h d, ⟨x, y + h⟩) :: visitVList r o x (y + h + d) rest
    | .charbox w h d =>
      (LNode.charbox w h d, ⟨x, y + h⟩) :: visitVList r o x (y + h + d) rest
    | .hbox w h d sh r2 o2 cs =>
      readHBoxFull (.hbox w h d sh r2 o2 cs) ⟨x + sh, y + h⟩
        ++ visitVList r o x (y + h + d) rest
    | .vbox w h d sh r2 o2 cs =>
      readVBoxFull (.vbox w h d sh r2 o2 cs) ⟨x + sh, y + h⟩
        ++ visitVList r o x (y + h + d) rest
    | .lkern s => visitVList r o x (y + s) rest
    | .lglue g => visitVList r o x (y + glueAdvance r o g) rest

end

mutual

/-- `read_hbox_partial(reader, layout, pos)`, instrumented to return the
sequence of visitor calls made together with the returned flag
(`true = PartialLayoutReader::Done`). -/
def readHBoxPartial (v : LNode → Pos → Bool) : LNode → Pos → List (LNode × Pos) × Bool
  | .hbox w h d sh r o cs, p =>
    if v (.hbox w h d sh r o cs) p then ([(LNode.hbox w h d sh r o cs, p)], true)
    else
      let st := pvisitHList v r o p.x p.y cs
      ((LNode.hbox w h d sh r o cs, p) :: st.1, st.2)
  | _, _ => ([], false)

/-- `read_vbox_partial(reader, layout, pos)`. -/
def readVBoxPartial (v : LNode → Pos → Bool) : LNode → Pos → List (LNode × Pos) × Bool
  | .vbox w h d sh r o cs, p =>
    if v (.vbox w h d sh r o cs) p then ([(LNode.vbox w h d sh r o cs, p)], true)
    else
      let st := pvisitVList v r o p.x (p.y - h) cs
      ((LNode.vbox w h d sh r o cs, p) :: st.1, st.2)
  | _, _ => ([], false)

/-- The child loop of `read_hbox_partial`: a `Done` return from the
visitor — directly or from a nested `read_hbox_partial` /
`read_vbox_partial` — returns immediately through every level. -/
def pvisitHList (v : LNode → Pos → Bool) (r : ℚ) (o : GlueOrder) (x y : ℚ) :
    List LNode → List (LNode × Pos) × Bool
  | [] => ([], false)
  | n :: rest =>
    match n with
    | .rule w h d =>
      if v (.rule w h d) ⟨x, y⟩ then ([(LNode.rule w h d, ⟨x, y⟩)], true)
      else
        let st := pvisitHList v r o (x + w) y rest
        ((LNode.rule w h d, ⟨x, y⟩) :: st.1, st.2)
    | .charbox w h d =>
      if v (.charbox w h d) ⟨x, y⟩ then ([(LNode.charbox w h d, ⟨x, y⟩)], true)
      else
        let st := pvisitHList v r o (x + w) y rest
        ((LNode.charbox w h d, ⟨x, y⟩) :: st.1, st.2)
    | .hbox w h d sh r2 o2 cs =>
      let st := readHBoxPartial v (.hbox w h d sh r2 o2 cs) ⟨x, y + sh⟩
      if st.2 then st
      else
        let st2 := pvisitHList v r o (x + w) y rest
        (st.1 ++ st2.1, st2.2)
    | .vbox w h d sh r2 o2 cs =>
      let st := readVBoxPartial v (.vbox w h d sh r2 o2 cs) ⟨x, y + sh⟩
      if st.2 then st
      else
        let st2 := pvisitHList v r o (x + w) y rest
        (st.1 ++ st2.1, st2.2)
    | .lkern s => pvisitHList v r o (x + s) y rest
    | .lglue g => pvisitHList v r o (x + glueAdvance r o g) y rest

/-- The child loop of `read_vbox_partial`. -/
def pvisitVList (v : LNode → Pos → Bool) (r : ℚ) (o : GlueOrder) (x y : ℚ) :
    List LNode → List (LNode × Pos) × Bool
  | [] => ([], false)
  | n :: rest =>
    match n with
    | .rule w h d =>
      if v (.rule w h d) ⟨x, y + h⟩ then ([(LNode.rule w h d, ⟨x, y + h⟩)], true)
      else
        let st := pvisitVList v r o x (y + h + d) rest
        ((LNode.rule w h d, ⟨x, y + h⟩) :: st.1, st.2)
    | .charbox w h d =>
      if v (.charbox w h d) ⟨x, y + h⟩ then ([(LNode.charbox w h d, ⟨x, y + h⟩)], true)
      else
        let st := pvisitVList v r o x (y + h + d) rest
        ((LNode.charbox w h d, ⟨x, y + h⟩) :: st.1, st.2)
    | .hbox w h d sh r2 o2 cs =>
      let st := readHBoxPartial v (.hbox w h d sh r2 o2 cs) ⟨x + sh, y + h⟩
      if st.2 then st
      else
        let st2 := pvisitVList v r o x (y + h + d) rest
        (st.1 ++ st2.1, st2.2)
    | .vbox w h d sh r2 o2 cs =>
      let st := readVBoxPartial v (.vbox w h d sh r2 o2 cs) ⟨x + sh, y + h⟩
      if st.2 then st
      else
        let st2 := pvisitVList v r o x (y + h + d) rest
        (st.1 ++ st2.1, st2.2)
    | .lkern s => pvisitVList v r o x (y + s) rest
    | .lglue g => pvisitVList v r o x (y + glueAdvance r o g) rest

end

/-- The prefix of a visit sequence up to and including the first entry at
which the visitor returns `Done`. -/
def stopAt (v : LNode → Pos → Bool) : List (LNode × Pos) → List (LNode × Pos)
  | [] => []
  | e :: rest => if v e.1 e.2 then [e] else e :: stopAt v rest

/-- Whether some entry of a visit sequence makes the visitor return
`Done`. -/
def hasHit (v : LNode → Pos → Bool) (l : List (LNode × Pos)) : Bool :=
  l.any (fun e => v e.1 e.2)

/-! Concrete inputs used to witness the theorems below. -/

/-- A small paragraph configuration: line width 10, tolerance 1, default
skips, no hanging indentation and no parshape. -/
def exCfg : Paragraph :=
  { hsize := 10, tolerance := 1, linepenalty := 0, adjdemerits := 0,
    hangindent := 0, hangafter := 1, parshape := [],
    leftskip := defaultLeftskip, rightskip := defaultLeftskip,
    parfillskip := defaultParfillskip }

/-- `exCfg` with a two-row parshape. -/
def exCfgParshape : Paragraph :=
  { exCfg with parshape := [⟨2, 7⟩, ⟨1, 8⟩] }

/-- `exCfg` with `hangindent = 3` and `hangafter = 0`. -/
def exCfgHang : Paragraph :=
  { exCfg with hangindent := 3, hangafter := 0 }

/-- A list whose only break chance is a forced penalty that no active
breakpoint can accept (the 10000-sentinel ratio exceeds the tolerance),
so the pass ends with no active breakpoint. -/
def exHlistInfeasible : List Node := [.penalty (-Penalty.Infinity)]

/-- A second infeasible list: an underfull box followed by a forced
penalty. -/
def exHlistInfeasible2 : List Node := [.box 3, .penalty (-Penalty.Infinity)]

/-- A box exactly filling the line, then a forced penalty: the breaker
succeeds with a single line. -/
def exHlistExact : List Node := [.box 10, .penalty (-Penalty.Infinity)]

/-- The final breakpoint the breaker builds on `exHlistExact`. -/
def exFinalBp : Breakpoint :=
  .mk 1 0 1 .Decent ⟨10, .zero, .zero⟩ (some initialBreakpoint)

/-- Totals with stretch 3 and width 4: an underfull line for `exCfg`. -/
def exSumStretch : Totals := ⟨4, .zero, ⟨3, 0, 0, 0⟩⟩

/-- Totals with shrink 4 and width 16: an overfull line for `exCfg`. -/
def exSumShrink : Totals := ⟨16, ⟨4, 0, 0, 0⟩, .zero⟩

/-- Totals of width exactly `exCfg.hsize`. -/
def exSumEq : Totals := ⟨10, .zero, .zero⟩

/-- C4: `computeGlueRatio` on active breakpoint `b`, running totals `sum`
and line `n`: with effective width `w = sum.width − b.totals.width −
leftskip.space − rightskip.space` and `L = linelength n`, if `w < L` the
result is 0 when the stretch difference has non-`Normal` order, else
`(L − w)` divided by its normal component when that is positive, else the
`+∞` sentinel; symmetrically with shrink when `w > L`, giving a negative
ratio; and 0 when `w = L`. -/
theorem computeGlueRatio_cases (cfg : Paragraph) (sum : Totals)
    (b : Breakpoint) (n : Nat) (w L : ℚ) (dst dsh : GlueTotals)
    (hw : w = sum.width - b.totals.width - cfg.leftskip.space - cfg.rightskip.space)
    (hL : L = linelength cfg n)
    (hdst : dst = sum.stretch + stretchTotals cfg.leftskip cfg.rightskip
      - b.totals.stretch)
    (hdsh : dsh = sum.shrink + shrinkTotals cfg.leftskip cfg.rightskip
      - b.totals.shrink) :
    (w < L → dst.order ≠ .Normal → computeGlueRatio cfg sum b n = 0) ∧
    (w < L → dst.order = .Normal → 0 < dst.normal →
      computeGlueRatio cfg sum b n = (L - w) / dst.normal) ∧
    (w < L → dst.order = .Normal → dst.normal ≤ 0 →
      computeGlueRatio cfg sum b n = (Penalty.Infinity : ℚ)) ∧
    (L < w → dsh.order ≠ .Normal → computeGlueRatio cfg sum b n = 0) ∧
    (L < w → dsh.order = .Normal → 0 < dsh.normal →
      computeGlueRatio cfg sum b n = (L - w) / dsh.normal ∧
        computeGlueRatio cfg sum b n < 0) ∧
    (L < w → dsh.order = .Normal → dsh.normal ≤ 0 →
      computeGlueRatio cfg sum b n = (Penalty.Infinity : ℚ)) ∧
    (w = L → computeGlueRatio cfg sum b n = 0) := by
  subst hw hL hdst hdsh
  refine ⟨fun h1 h2 => ?_, fun h1 h2 h3 => ?_, fun h1 h2 h3 => ?_,
    fun h1 h2 => ?_, fun h1 h2 h3 => ?_, fun h1 h2 h3 => ?_, fun h1 => ?_⟩
  · simp only [computeGlueRatio]
    rw [if_pos h1, if_pos h2]
  · simp only [computeGlueRatio]
    rw [if_pos h1, if_neg (by simp [h2]), if_pos h3]
  · simp only [computeGlueRatio]
    rw [if_pos h1, if_neg (by simp [h2]), if_neg (not_lt.mpr h3)]
  · simp only [computeGlueRatio]
    rw [if_neg (not_lt.mpr (le_of_lt h1)), if_pos h1, if_pos h2]
  · simp only [computeGlueRatio]
    rw [if_neg (not_lt.mpr (le_of_lt h1)), if_pos h1, if_neg (by simp [h2]),
      if_pos h3]
    exact ⟨rfl, div_neg_of_neg_of_pos (by linarith) h3⟩
  · simp only [computeGlueRatio]
    rw [if_neg (not_lt.mpr (le_of_lt h1)), if_pos h1, if_neg (by simp [h2]),
      if_neg (not_lt.mpr h3)]
  · simp only [computeGlueRatio]
    rw [if_neg (by rw [h1]; exact lt_irrefl _), if_neg (by rw [h1]; exact lt_irrefl _)]

unseal Rat.add Rat.sub Rat.mul Rat.inv in
theorem computeGlueRatio_cases_witness :
    computeGlueRatio exCfg exSumStretch initialBreakpoint 0 = 2 ∧
    (computeGlueRatio exCfg exSumShrink initialBreakpoint 0 = -(3 / 2) ∧
      computeGlueRatio exCfg exSumShrink initialBreakpoint 0 < 0) ∧
    computeGlueRatio exCfg exSumEq initialBreakpoint 0 = 0 := by
  refine ⟨?_, ?_, ?_⟩
  · have h := (computeGlueRatio_cases exCfg exSumStretch initialBreakpoint 0
      _ _ _ _ rfl rfl rfl rfl).2.1 (by decide) (by decide) (by decide)
    rw [h]; decide
  · have h := (computeGlueRatio_cases exCfg exSumShrink initialBreakpoint 0
      _ _ _ _ rfl rfl rfl rfl).2.2.2.2.1 (by decide) (by decide) (by decide)
    refine ⟨?_, h.2⟩
    rw [h.1]; decide
  · exact (computeGlueRatio_cases exCfg exSumEq initialBreakpoint 0
      _ _ _ _ rfl rfl rfl rfl).2.2.2.2.2.2 (by decide)

/-- C5: `computeDemerits l b p` is `(l+b)² + p²` for `0 ≤ p < 10000`,
`(l+b)² − p²` for `−10000 < p < 0`, and `(l+b)²` otherwise; in `tryBreak`
the badness used is `min(10000, ⌊100·|r|³⌋)` of the glue ratio `r`, with
`adjdemerits` added when the fitness classes differ by more than 1, and
the active breakpoint's demerits added on top. -/
theorem computeDemerits_tryBreak_formula (l b p : Int) (cfg : Paragraph)
    (r : ℚ) (node : Node) (bp : Breakpoint) :
    (0 ≤ p → p < 10000 → computeDemerits l b p = (l + b) ^ 2 + p ^ 2) ∧
    (-10000 < p → p < 0 → computeDemerits l b p = (l + b) ^ 2 - p ^ 2) ∧
    (10000 ≤ p ∨ p ≤ -10000 → computeDemerits l b p = (l + b) ^ 2) ∧
    computeBadness r = min 10000 (Int.floor (100 * |r| ^ 3)) ∧
    candidateDemerits cfg r node bp =
      computeDemerits cfg.linepenalty (computeBadness r)
          (match node with | .penalty v => v | _ => 0)
        + (if 1 < |(getFitnessClass r).toInt - bp.fitness.toInt|
           then cfg.adjdemerits else 0)
        + bp.demerits := by
  refine ⟨fun h1 h2 => ?_, fun h1 h2 => ?_, fun h => ?_, ?_, ?_⟩
  · rw [computeDemerits, if_pos ⟨h1, h2⟩]
  · rw [computeDemerits, if_neg (by omega), if_pos ⟨h1, h2⟩]
  · rw [computeDemerits, if_neg (by omega), if_neg (by omega)]
  · simp only [computeBadness]
    exact min_comm _ _
  · have hmain : candidateDemerits cfg r node bp =
        (if (!checkCompatibility (getFitnessClass r) bp.fitness) = true then
          computeDemerits cfg.linepenalty (computeBadness r)
            (match node with | .penalty v => v | _ => 0) + cfg.adjdemerits
        else
          computeDemerits cfg.linepenalty (computeBadness r)
            (match node with | .penalty v => v | _ => 0)) + bp.demerits := rfl
    rw [hmain]
    by_cases hc : 1 < |(getFitnessClass r).toInt - bp.fitness.toInt|
    · have hb : (!checkCompatibility (getFitnessClass r) bp.fitness) = true := by
        simp [checkCompatibility, not_le]
        omega
      rw [if_pos hb, if_pos hc]
    · have hb : ¬((!checkCompatibility (getFitnessClass r) bp.fitness) = true) := by
        simp [checkCompatibility]
        omega
      rw [if_neg hb, if_neg hc]
      omega

theorem computeDemerits_tryBreak_formula_witness :
    computeDemerits 1 2 5 = (1 + 2) ^ 2 + 5 ^ 2 ∧
    computeDemerits 1 2 (-5) = (1 + 2) ^ 2 - (-5 : Int) ^ 2 ∧
    computeDemerits 1 2 10000 = (1 + 2) ^ 2 :=
  ⟨(computeDemerits_tryBreak_formula 1 2 5 exCfg 0 (.box 0) initialBreakpoint).1
      (by decide) (by decide),
   (computeDemerits_tryBreak_formula 1 2 (-5) exCfg 0 (.box 0) initialBreakpoint).2.1
      (by decide) (by decide),
   (computeDemerits_tryBreak_formula 1 2 10000 exCfg 0 (.box 0) initialBreakpoint).2.2.1
      (Or.inl (by decide))⟩

/-- C6: `linelength n` is row `min(n, parshape.size()−1)`'s length when
the parshape is non-empty; else `hsize − |hangindent|` when
`hangindent ≠ 0` and the hanging indent applies to line `n`; else `hsize`.
When `hangafter = 0` and `hangindent > 0` the hanging indent applies to
every line. -/
theorem linelength_cases (cfg : Paragraph) (n : Nat) :
    (cfg.parshape ≠ [] →
      linelength cfg n =
        (cfg.parshape.getD (min n (cfg.parshape.length - 1)) default).length) ∧
    (cfg.parshape = [] → cfg.hangindent ≠ 0 →
      hangindentAppliesToLine cfg n = true →
      linelength cfg n = cfg.hsize - |cfg.hangindent|) ∧
    (cfg.parshape = [] →
      (cfg.hangindent = 0 ∨ hangindentAppliesToLine cfg n = false) →
      linelength cfg n = cfg.hsize) ∧
    (cfg.hangafter = 0 → 0 < cfg.hangindent →
      hangindentAppliesToLine cfg n = true) := by
  refine ⟨fun hne => ?_, fun hp hh ha => ?_, fun hp hor => ?_, fun h0 hpos => ?_⟩
  · rcases hps : cfg.parshape with _ | ⟨p, ps⟩
    · exact absurd hps hne
    · simp only [linelength, hps]
      by_cases hn : n ≥ (p :: ps).length
      · have hidx : min n ((p :: ps).length - 1) = (p :: ps).length - 1 := by
          simp only [List.length_cons] at hn ⊢
          omega
        rw [if_pos hn, hidx, List.getLast_eq_getElem,
          List.getD_eq_getElem _ _ (by simp only [List.length_cons]; omega)]
      · have hn2 : n < (p :: ps).length := lt_of_not_ge hn
        have hidx : min n ((p :: ps).length - 1) = n := by
          simp only [List.length_cons] at hn2 ⊢
          omega
        rw [if_neg hn, hidx, List.getD_eq_getElem _ _ hn2,
          List.getD_eq_getElem _ _ hn2]
  · unfold linelength
    rw [hp]
    rw [if_pos (by simp [hh, ha])]
  · unfold linelength
    rw [hp]
    rcases hor with h | h
    · rw [if_neg (by simp [h])]
    · rw [if_neg (by simp [h])]
  · unfold hangindentAppliesToLine
    rw [h0]
    simp

unseal Rat.add Rat.sub Rat.mul Rat.inv in
theorem linelength_cases_witness :
    linelength exCfgParshape 5 = 8 ∧
    linelength exCfgHang 4 = 10 - 3 ∧
    linelength exCfg 4 = 10 ∧
    hangindentAppliesToLine exCfgHang 4 = true := by
  refine ⟨?_, ?_, ?_, ?_⟩
  · have h := (linelength_cases exCfgParshape 5).1 (by decide)
    rw [h]; decide
  · have h := (linelength_cases exCfgHang 4).2.1 rfl (by decide) (by decide)
    rw [h]; decide
  · exact (linelength_cases exCfg 4).2.2.1 rfl (Or.inl (by decide))
  · exact (linelength_cases exCfgHang 4).2.2.2 rfl (by decide)

unseal Rat.add Rat.sub Rat.mul Rat.inv in
/-- C8 counterexample: at a forced penalty sitting exactly at the starting
position, `squeezeDiscardables` does not stop (the `it != breakpointpos`
side-condition fails) and accumulates the glue behind it, while the claim
as stated predicts a stop at that forced break. -/
theorem squeezeDiscardables_start_counterexample :
    squeezeDiscardables Totals.zero
        [.penalty (-Penalty.Infinity), .glue (Glue.make 5 0 0 .Normal .Normal)]
      ≠ squeezeDiscardablesClaim Totals.zero
        [.penalty (-Penalty.Infinity), .glue (Glue.make 5 0 0 .Normal .Normal)] := by
  decide

theorem squeezeDiscardablesAux_scan (l : List Node) :
    ∀ (first : Bool) (sum : Totals),
      squeezeDiscardablesAux sum first l =
        discardableContrib sum (l.take (squeezeScanCount first l)) := by
  induction l with
  | nil => intro first sum; rfl
  | cons n rest ih =>
    intro first sum
    match n with
    | .box w =>
      rw [squeezeDiscardablesAux, squeezeScanCount]
      simp [Node.isBox, discardableContrib]
    | .glue g =>
      rw [squeezeDiscardablesAux, squeezeScanCount]
      simp only [Node.isBox, isForcedLinebreak, Bool.and_false, Bool.false_or,
        Bool.or_false, Bool.false_and, if_neg Bool.false_ne_true]
      rw [ih]
      simp [discardableContrib]
    | .kern s =>
      rw [squeezeDiscardablesAux, squeezeScanCount]
      simp only [Node.isBox, isForcedLinebreak, Bool.and_false, Bool.false_or,
        Bool.or_false, Bool.false_and, if_neg Bool.false_ne_true]
      rw [ih]
      simp [discardableContrib]
    | .penalty v =>
      rw [squeezeDiscardablesAux, squeezeScanCount]
      by_cases hf : (!first && isForcedLinebreak (.penalty v)) = true
      · rw [if_pos hf]
        simp only [Node.isBox, Bool.false_or, hf, if_pos rfl]
        rfl
      · rw [if_neg hf]
        simp only [Node.isBox, Bool.false_or, hf, if_neg]
        rw [ih]
        simp [discardableContrib]

/-- C8 (amended): `squeezeDiscardables sum [it, end)` returns `sum`
augmented by the space of every glue node (stretch and shrink
accumulated) and of every kern node in the scanned prefix, which stops at
the first box node or at a forced break strictly after the starting
position. -/
theorem squeezeDiscardables_scan (sum : Totals) (l : List Node) :
    squeezeDiscardables sum l =
      discardableContrib sum (l.take (squeezeScanCount true l)) :=
  squeezeDiscardablesAux_scan l true sum

theorem prepare_nonempty_eq (cfg : Paragraph) (hlist : List Node)
    (hne : hlist ≠ []) :
    prepare cfg hlist =
      (if hlist.getLast?.any Node.isGlue then hlist.dropLast else hlist)
        ++ [.penalty Penalty.Infinity, .glue cfg.parfillskip,
            .penalty (-Penalty.Infinity)] := by
  unfold prepare
  rw [if_neg (by simpa using hne)]
  rcases hl : hlist.getLast? with _ | n
  · exact absurd (List.getLast?_eq_none_iff.mp hl) hne
  · simp only [hl, Option.any_some]

/-- C10: `prepare` leaves an empty list unchanged; on a non-empty list it
removes the final node exactly when that node is glue, keeps every other
node in order, and appends the three terminating nodes. -/
theorem prepare_frame_effect (cfg : Paragraph) (hlist : List Node) :
    prepare cfg [] = [] ∧
    (hlist ≠ [] →
      prepare cfg hlist =
        (if hlist.getLast?.any Node.isGlue then hlist.dropLast else hlist)
          ++ [.penalty Penalty.Infinity, .glue cfg.parfillskip,
              .penalty (-Penalty.Infinity)]) :=
  ⟨rfl, fun hne => prepare_nonempty_eq cfg hlist hne⟩

theorem prepare_frame_effect_witness :
    prepare exCfg [.box 1, .glue defaultLeftskip] =
      [.box 1, .penalty Penalty.Infinity, .glue exCfg.parfillskip,
       .penalty (-Penalty.Infinity)] := by
  have h := (prepare_frame_effect exCfg [.box 1, .glue defaultLeftskip]).2
    (by decide)
  rw [h]
  decide

/-- C3: after `prepare`, a non-empty horizontal list of a paragraph whose
`parfillskip` is the constructor default terminates with exactly an
infinite-positive penalty, the parfillskip glue — whose stretch has `Fil`
order — and an infinite-negative penalty. -/
theorem prepare_terminators (cfg : Paragraph) (hlist : List Node)
    (hne : hlist ≠ []) (hfill : cfg.parfillskip = defaultParfillskip) :
    ∃ pre, prepare cfg hlist =
        pre ++ [.penalty Penalty.Infinity, .glue cfg.parfillskip,
                .penalty (-Penalty.Infinity)] ∧
      cfg.parfillskip.stretchOrder = .Fil ∧ 0 < cfg.parfillskip.stretch := by
  refine ⟨if hlist.getLast?.any Node.isGlue then hlist.dropLast else hlist,
    prepare_nonempty_eq cfg hlist hne, ?_, ?_⟩
  · rw [hfill]; rfl
  · rw [hfill]; decide

/-- C1 (amended): when the feasible-breakpoint pass leaves the active set
empty, `computeBreakpoints` reports the "no feasible breakpoint"
condition by throwing `std::runtime_error{"Failed"}` — an exception, not
an error value; the `Paragraph` configuration is not modified by the
pass, so a caller that catches the exception may retry with a relaxed
tolerance. -/
theorem computeBreakpoints_empty_throws (cfg : Paragraph) (hlist : List Node)
    (h : computeFeasibleBreakpoints cfg hlist = []) :
    computeBreakpoints cfg hlist = .thrown "Failed" := by
  rw [computeBreakpoints, h]

unseal Rat.add Rat.sub Rat.mul Rat.inv in
theorem computeBreakpoints_empty_throws_witness :
    computeFeasibleBreakpoints exCfg exHlistInfeasible = [] ∧
    computeBreakpoints exCfg exHlistInfeasible = .thrown "Failed" :=
  ⟨by decide, computeBreakpoints_empty_throws exCfg exHlistInfeasible (by decide)⟩

unseal Rat.add Rat.sub Rat.mul Rat.inv in
/-- C1 counterexample: a pass that ends with no active breakpoint makes
`computeBreakpoints` throw (`.thrown`, the model of
`throw std::runtime_error{ "Failed" }` at linebreaks.cpp:157), so the
condition is not reported via an error value. -/
theorem computeBreakpoints_throws_counterexample :
    computeFeasibleBreakpoints exCfg exHlistInfeasible2 = [] ∧
    computeBreakpoints exCfg exHlistInfeasible2 = .thrown "Failed" := by
  have h : computeFeasibleBreakpoints exCfg exHlistInfeasible2 = [] := by decide
  exact ⟨h, by rw [computeBreakpoints, h]⟩

theorem attemptFlags_spec :
    ∀ (l : List Node) (prev : Option Node) (k : Nat) (n : Node),
      l.get? k = some n →
      ((attemptFlags prev l).get? k = some true ↔
        (n.isGlue = true ∧
          ((if k = 0 then prev else l.get? (k - 1)).any Node.isBox) = true) ∨
        (∃ p, n = .penalty p ∧ p < Penalty.Infinity)) := by
  intro l
  induction l with
  | nil => intro prev k n h; simp at h
  | cons a rest ih =>
    intro prev k n h
    cases k with
    | zero =>
      obtain rfl : a = n := by simpa using h
      simp only [attemptFlags, List.get?_cons_zero, Option.some_inj,
        if_pos rfl]
      constructor
      · intro hs
        cases a with
        | box w => simp [shouldAttempt] at hs
        | glue g =>
          refine Or.inl ⟨rfl, ?_⟩
          cases prev with
          | none => simp [shouldAttempt] at hs
          | some pn => simpa [shouldAttempt, Option.any] using hs
        | kern s => simp [shouldAttempt] at hs
        | penalty v =>
          refine Or.inr ⟨v, rfl, ?_⟩
          simp [shouldAttempt, isForbiddenLinebreak, Penalty.Infinity] at hs ⊢
          omega
      · intro hs
        rcases hs with ⟨hg, hb⟩ | ⟨p, rfl, hp⟩
        · cases a with
          | glue g =>
            cases prev with
            | none => simp [Option.any] at hb
            | some pn => simpa [shouldAttempt, Option.any] using hb
          | box w => simp [Node.isGlue] at hg
          | kern s => simp [Node.isGlue] at hg
          | penalty v => simp [Node.isGlue] at hg
        · simp [shouldAttempt, isForbiddenLinebreak, Penalty.Infinity] at hp ⊢
          omega
    | succ k2 =>
      have h2 : rest.get? k2 = some n := by simpa using h
      have hflag : (attemptFlags prev (a :: rest)).get? (k2 + 1)
          = (attemptFlags (some a) rest).get? k2 := by
        simp [attemptFlags]
      rw [hflag, ih (some a) k2 n h2]
      have hprev : (if k2 = 0 then some a else rest.get? (k2 - 1))
          = (a :: rest).get? (k2 + 1 - 1) := by
        cases k2 with
        | zero => simp
        | succ k3 => simp
      rw [hprev]
      simp

/-- C7: during the feasible-breakpoint pass, `tryBreak` is invoked at a
node exactly when it is a glue node immediately preceded by a box, or a
penalty whose value is below the `+∞` sentinel; at every other node the
active list is passed through unchanged. -/
theorem feasible_break_attempts (cfg : Paragraph) (i : Nat) (sum : Totals)
    (acts : List Breakpoint) (rest : List Node) :
    (∀ (l : List Node) (prev : Option Node) (k : Nat) (n : Node),
      l.get? k = some n →
      ((attemptFlags prev l).get? k = some true ↔
        (n.isGlue = true ∧
          ((if k = 0 then prev else l.get? (k - 1)).any Node.isBox) = true) ∨
        (∃ p, n = .penalty p ∧ p < Penalty.Infinity))) ∧
    (∀ (prev : Option Node) (node : Node), shouldAttempt prev node = true →
      (cfbStep cfg prev i sum acts node rest).2
        = tryBreak cfg node (node :: rest) i sum acts) ∧
    (∀ (prev : Option Node) (node : Node), shouldAttempt prev node = false →
      (cfbStep cfg prev i sum acts node rest).2 = acts) := by
  refine ⟨attemptFlags_spec, fun prev node hs => ?_, fun prev node hs => ?_⟩
  · cases node <;> simp [cfbStep, hs]
  · cases node <;> simp [cfbStep, hs]

theorem feasible_break_attempts_witness :
    (attemptFlags none [.box 1, .glue defaultLeftskip, .penalty 0,
      .penalty Penalty.Infinity]).get? 1 = some true ∧
    (attemptFlags none [.box 1, .glue defaultLeftskip, .penalty 0,
      .penalty Penalty.Infinity]).get? 2 = some true := by
  have h := (feasible_break_attempts exCfg 0 Totals.zero [] []).1
  constructor
  · exact (h [.box 1, .glue defaultLeftskip, .penalty 0,
      .penalty Penalty.Infinity] none 1 (.glue defaultLeftskip) (by decide)).mpr
      (Or.inl ⟨by decide, by decide⟩)
  · exact (h [.box 1, .glue defaultLeftskip, .penalty 0,
      .penalty Penalty.Infinity] none 2 (.penalty 0) (by decide)).mpr
      (Or.inr ⟨0, rfl, by decide⟩)

theorem prepare_terminators_witness :
    prepare exCfg [.box 2] =
      [.box 2] ++ [.penalty Penalty.Infinity, .glue exCfg.parfillskip,
                   .penalty (-Penalty.Infinity)] ∧
    exCfg.parfillskip.stretchOrder = .Fil ∧ 0 < exCfg.parfillskip.stretch := by
  obtain ⟨pre, heq, hord, hpos⟩ := prepare_terminators exCfg [.box 2]
    (by decide) (by decide)
  exact ⟨by decide, hord, hpos⟩

theorem stopAt_cons (v : LNode → Pos → Bool) (e : LNode × Pos)
    (rest : List (LNode × Pos)) :
    stopAt v (e :: rest) = if v e.1 e.2 then [e] else e :: stopAt v rest := by
  rw [stopAt]

theorem hasHit_cons (v : LNode → Pos → Bool) (e : LNode × Pos)
    (rest : List (LNode × Pos)) :
    hasHit v (e :: rest) = (v e.1 e.2 || hasHit v rest) := by
  simp [hasHit]

theorem stopAt_of_not_hit (v : LNode → Pos → Bool) :
    ∀ (l : List (LNode × Pos)), hasHit v l = false → stopAt v l = l := by
  intro l
  induction l with
  | nil => intro _; rfl
  | cons e rest ih =>
    intro h
    rw [hasHit_cons] at h
    rcases Bool.or_eq_false_iff.mp h with ⟨h1, h2⟩
    rw [stopAt_cons, if_neg (by simp [h1]), ih h2]

theorem hasHit_append (v : LNode → Pos → Bool) (a b : List (LNode × Pos)) :
    hasHit v (a ++ b) = (hasHit v a || hasHit v b) := by
  simp [hasHit]

theorem stopAt_append (v : LNode → Pos → Bool) :
    ∀ (a b : List (LNode × Pos)),
      stopAt v (a ++ b)
        = if hasHit v a then stopAt v a else a ++ stopAt v b := by
  intro a
  induction a with
  | nil => intro b; simp [hasHit, stopAt]
  | cons e rest ih =>
    intro b
    by_cases he : v e.1 e.2
    · have hh : hasHit v (e :: rest) = true := by
        rw [hasHit_cons, he]
        simp
      rw [List.cons_append, stopAt_cons, if_pos he, hh, if_pos rfl,
        stopAt_cons, if_pos he]
    · have hee : v e.1 e.2 = false := by simpa using he
      rw [List.cons_append, stopAt_cons, if_neg he, ih b, stopAt_cons,
        if_neg he, hasHit_cons, hee, Bool.false_or]
      by_cases hr : hasHit v rest = true
      · rw [if_pos hr, if_pos hr]
      · rw [if_neg hr, if_neg hr, List.cons_append]

theorem partialFull_aux : ∀ N : Nat,
    (∀ (b : LNode) (p : Pos) (v : LNode → Pos → Bool), sizeOf b ≤ N →
      readHBoxPartial v b p
        = (stopAt v (readHBoxFull b p), hasHit v (readHBoxFull b p)) ∧
      readVBoxPartial v b p
        = (stopAt v (readVBoxFull b p), hasHit v (readVBoxFull b p))) ∧
    (∀ (l : List LNode) (v : LNode → Pos → Bool) (r : ℚ) (o : GlueOrder)
      (x y : ℚ), sizeOf l ≤ N →
      pvisitHList v r o x y l
        = (stopAt v (visitHList r o x y l), hasHit v (visitHList r o x y l)) ∧
      pvisitVList v r o x y l
        = (stopAt v (visitVList r o x y l), hasHit v (visitVList r o x y l))) := by
  intro N
  induction N using Nat.strong_induction_on with
  | _ N ih =>
    have boxStep : ∀ (b : LNode) (p : Pos) (v : LNode → Pos → Bool),
        sizeOf b ≤ N →
        readHBoxPartial v b p
          = (stopAt v (readHBoxFull b p), hasHit v (readHBoxFull b p)) ∧
        readVBoxPartial v b p
          = (stopAt v (readVBoxFull b p), hasHit v (readVBoxFull b p)) := by
      intro b p v hN
      cases b with
      | hbox w h d sh r2 o2 cs =>
        have hcs : sizeOf cs < N := by
          have hlt : sizeOf cs < sizeOf (LNode.hbox w h d sh r2 o2 cs) := by
            simp
            try omega
          omega
        have hl := ((ih (sizeOf cs) hcs).2 cs v r2 o2 p.x p.y le_rfl).1
        constructor
        · by_cases hv : v (.hbox w h d sh r2 o2 cs) p
          · simp [readHBoxPartial, readHBoxFull, hv, stopAt_cons, hasHit_cons]
          · have hvf : v (.hbox w h d sh r2 o2 cs) p = false := by
              simpa using hv
            simp [readHBoxPartial, readHBoxFull, hvf, stopAt_cons,
              hasHit_cons, hl]
        · simp [readVBoxPartial, readVBoxFull, stopAt, hasHit]
      | vbox w h d sh r2 o2 cs =>
        have hcs : sizeOf cs < N := by
          have hlt : sizeOf cs < sizeOf (LNode.vbox w h d sh r2 o2 cs) := by
            simp
            try omega
          omega
        have hl := ((ih (sizeOf cs) hcs).2 cs v r2 o2 p.x (p.y - h) le_rfl).2
        constructor
        · simp [readHBoxPartial, readHBoxFull, stopAt, hasHit]
        · by_cases hv : v (.vbox w h d sh r2 o2 cs) p
          · simp [readVBoxPartial, readVBoxFull, hv, stopAt_cons, hasHit_cons]
          · have hvf : v (.vbox w h d sh r2 o2 cs) p = false := by
              simpa using hv
            simp [readVBoxPartial, readVBoxFull, hvf, stopAt_cons,
              hasHit_cons, hl]
      | rule w h d =>
        exact ⟨by simp [readHBoxPartial, readHBoxFull, stopAt, hasHit],
               by simp [readVBoxPartial, readVBoxFull, stopAt, hasHit]⟩
      | charbox w h d =>
        exact ⟨by simp [readHBoxPartial, readHBoxFull, stopAt, hasHit],
               by simp [readVBoxPartial, readVBoxFull, stopAt, hasHit]⟩
      | lglue g =>
        exact ⟨by simp [readHBoxPartial, readHBoxFull, stopAt, hasHit],
               by simp [readVBoxPartial, readVBoxFull, stopAt, hasHit]⟩
      | lkern s =>
        exact ⟨by simp [readHBoxPartial, readHBoxFull, stopAt, hasHit],
               by simp [readVBoxPartial, readVBoxFull, stopAt, hasHit]⟩
    refine ⟨boxStep, ?_⟩
    intro l v r o x y hN
    cases l with
    | nil =>
      exact ⟨by simp [pvisitHList, visitHList, stopAt, hasHit],
             by simp [pvisitVList, visitVList, stopAt, hasHit]⟩
    | cons n rest =>
      have hrest : sizeOf rest < N := by
        have hlt : sizeOf rest < sizeOf (n :: rest) := by
          simp
          try omega
        omega
      have hn : sizeOf n < N := by
        have hlt : sizeOf n < sizeOf (n :: rest) := by
          simp
          try omega
        omega
      cases n with
      | rule w h d =>
        constructor
        · have hr := ((ih _ hrest).2 rest v r o (x + w) y le_rfl).1
          by_cases hv : v (.rule w h d) ⟨x, y⟩
          · simp [pvisitHList, visitHList, hv, stopAt_cons, hasHit_cons]
          · have hvf : v (.rule w h d) (⟨x, y⟩ : Pos) = false := by
              simpa using hv
            simp [pvisitHList, visitHList, hvf, stopAt_cons, hasHit_cons, hr]
        · have hr := ((ih _ hrest).2 rest v r o x (y + h + d) le_rfl).2
          by_cases hv : v (.rule w h d) ⟨x, y + h⟩
          · simp [pvisitVList, visitVList, hv, stopAt_cons, hasHit_cons]
          · have hvf : v (.rule w h d) (⟨x, y + h⟩ : Pos) = false := by
              simpa using hv
            simp [pvisitVList, visitVList, hvf, stopAt_cons, hasHit_cons, hr]
      | charbox w h d =>
        constructor
        · have hr := ((ih _ hrest).2 rest v r o (x + w) y le_rfl).1
          by_cases hv : v (.charbox w h d) ⟨x, y⟩
          · simp [pvisitHList, visitHList, hv, stopAt_cons, hasHit_cons]
          · have hvf : v (.charbox w h d) (⟨x, y⟩ : Pos) = false := by
              simpa using hv
            simp [pvisitHList, visitHList, hvf, stopAt_cons, hasHit_cons, hr]
        · have hr := ((ih _ hrest).2 rest v r o x (y + h + d) le_rfl).2
          by_cases hv : v (.charbox w h d) ⟨x, y + h⟩
          · simp [pvisitVList, visitVList, hv, stopAt_cons, hasHit_cons]
          · have hvf : v (.charbox w h d) (⟨x, y + h⟩ : Pos) = false := by
              simpa using hv
            simp [pvisitVList, visitVList, hvf, stopAt_cons, hasHit_cons, hr]
      | hbox w h d sh r2 o2 cs =>
        constructor
        · have hr := ((ih _ hrest).2 rest v r o (x + w) y le_rfl).1
          have hbx := ((ih _ hn).1 (.hbox w h d sh r2 o2 cs) ⟨x, y + sh⟩ v
            le_rfl).1
          by_cases hh : hasHit v (readHBoxFull (.hbox w h d sh r2 o2 cs)
            ⟨x, y + sh⟩)
          · simp [pvisitHList, visitHList, hbx, hh, stopAt_append,
              hasHit_append]
          · have hhf : hasHit v (readHBoxFull (.hbox w h d sh r2 o2 cs)
                (⟨x, y + sh⟩ : Pos)) = false := by simpa using hh
            simp [pvisitHList, visitHList, hbx, hr, hhf, stopAt_append,
              hasHit_append, stopAt_of_not_hit]
        · have hr := ((ih _ hrest).2 rest v r o x (y + h + d) le_rfl).2
          have hbx := ((ih _ hn).1 (.hbox w h d sh r2 o2 cs) ⟨x + sh, y + h⟩ v
            le_rfl).1
          by_cases hh : hasHit v (readHBoxFull (.hbox w h d sh r2 o2 cs)
            ⟨x + sh, y + h⟩)
          · simp [pvisitVList, visitVList, hbx, hh, stopAt_append,
              hasHit_append]
          · have hhf : hasHit v (readHBoxFull (.hbox w h d sh r2 o2 cs)
                (⟨x + sh, y + h⟩ : Pos)) = false := by simpa using hh
            simp [pvisitVList, visitVList, hbx, hr, hhf, stopAt_append,
              hasHit_append, stopAt_of_not_hit]
      | vbox w h d sh r2 o2 cs =>
        constructor
        · have hr := ((ih _ hrest).2 rest v r o (x + w) y le_rfl).1
          have hbx := ((ih _ hn).1 (.vbox w h d sh r2 o2 cs) ⟨x, y + sh⟩ v
            le_rfl).2
          by_cases hh : hasHit v (readVBoxFull (.vbox w h d sh r2 o2 cs)
            ⟨x, y + sh⟩)
          · simp [pvisitHList, visitHList, hbx, hh, stopAt_append,
              hasHit_append]
          · have hhf : hasHit v (readVBoxFull (.vbox w h d sh r2 o2 cs)
                (⟨x, y + sh⟩ : Pos)) = false := by simpa using hh
            simp [pvisitHList, visitHList, hbx, hr, hhf, stopAt_append,
              hasHit_append, stopAt_of_not_hit]
        · have hr := ((ih _ hrest).2 rest v r o x (y + h + d) le_rfl).2
          have hbx := ((ih _ hn).1 (.vbox w h d sh r2 o2 cs) ⟨x + sh, y + h⟩ v
            le_rfl).2
          by_cases hh : hasHit v (readVBoxFull (.vbox w h d sh r2 o2 cs)
            ⟨x + sh, y + h⟩)
          · simp [pvisitVList, visitVList, hbx, hh, stopAt_append,
              hasHit_append]
          · have hhf : hasHit v (readVBoxFull (.vbox w h d sh r2 o2 cs)
                (⟨x + sh, y + h⟩ : Pos)) = false := by simpa using hh
            simp [pvisitVList, visitVList, hbx, hr, hhf, stopAt_append,
              hasHit_append, stopAt_of_not_hit]
      | lglue g =>
        constructor
        · have hr := ((ih _ hrest).2 rest v r o (x + glueAdvance r o g) y
            le_rfl).1
          rw [pvisitHList, visitHList]
          exact hr
        · have hr := ((ih _ hrest).2 rest v r o x (y + glueAdvance r o g)
            le_rfl).2
          rw [pvisitVList, visitVList]
          exact hr
      | lkern s =>
        constructor
        · have hr := ((ih _ hrest).2 rest v r o (x + s) y le_rfl).1
          rw [pvisitHList, visitHList]
          exact hr
        · have hr := ((ih _ hrest).2 rest v r o x (y + s) le_rfl).2
          rw [pvisitVList, visitVList]
          exact hr

theorem Candidates.get_set (cs : Candidates) (fc fc2 : FitnessClass)
    (c : Candidate) :
    (cs.set fc c).get fc2 = if fc2 = fc then c else cs.get fc2 := by
  cases fc <;> cases fc2 <;> rfl

theorem Candidates.get_init (fc : FitnessClass) :
    Candidates.init.get fc = Candidate.init := by
  cases fc <;> rfl

theorem processActive_fst_sub (cfg : Paragraph) (node : Node) (sum : Totals)
    (cl : Nat) (b : Breakpoint) (cs : Candidates) :
    ∀ x ∈ (processActive cfg node sum cl b cs).1, x = b := by
  intro x hx
  simp only [processActive] at hx
  split_ifs at hx
  · simp at hx
  · simpa using hx

theorem processActive_fst_forced (cfg : Paragraph) (node : Node)
    (sum : Totals) (cl : Nat) (b : Breakpoint) (cs : Candidates)
    (h : isForcedLinebreak node = true) :
    (processActive cfg node sum cl b cs).1 = [] := by
  simp [processActive, h]

theorem processActive_snd_inv (P : Breakpoint → Prop) (cfg : Paragraph)
    (node : Node) (sum : Totals) (cl : Nat) (b : Breakpoint) (cs : Candidates)
    (hcs : ∀ fc a, (cs.get fc).active = some a → P a) (hb : P b) :
    ∀ fc a, ((processActive cfg node sum cl b cs).2.get fc).active = some a →
      P a := by
  intro fc a ha
  simp only [processActive] at ha
  split_ifs at ha
  · rw [Candidates.get_set] at ha
    by_cases hfc : fc = getFitnessClass (computeGlueRatio cfg sum b cl)
    · rw [if_pos hfc] at ha
      simp at ha
      rw [← ha]
      exact hb
    · rw [if_neg hfc] at ha
      exact hcs fc a ha
  · exact hcs fc a ha
  · exact hcs fc a ha

theorem newBreakpoints_forall (P : Breakpoint → Prop) (pos : Nat)
    (ls : Totals) (cs : Candidates)
    (h : ∀ fc a, (cs.get fc).active = some a →
      P (.mk pos (cs.get fc).demerits (a.line + 1) fc ls (some a))) :
    ∀ b ∈ newBreakpoints pos ls cs, P b := by
  have aux : ∀ (fcs : List FitnessClass) (acc : List Breakpoint),
      (∀ b ∈ acc, P b) →
      ∀ b ∈ fcs.foldl
        (fun acc fc =>
          let c := cs.get fc
          match c.active with
          | some a =>
            if c.demerits < intMax then
              acc ++ [Breakpoint.mk pos c.demerits (a.line + 1) fc ls (some a)]
            else acc
          | none => acc)
        acc, P b := by
    intro fcs
    induction fcs with
    | nil => intro acc hacc b hb; exact hacc b hb
    | cons fc fcs ih =>
      intro acc hacc b hb
      refine ih _ ?_ b hb
      intro x hx
      rcases hcand : (cs.get fc).active with _ | a
      · simp only [hcand] at hx
        exact hacc x hx
      · simp only [hcand] at hx
        by_cases hd : (cs.get fc).demerits < intMax
        · rw [if_pos hd] at hx
          rcases List.mem_append.mp hx with hx2 | hx2
          · exact hacc x hx2
          · have hxe : x = Breakpoint.mk pos (cs.get fc).demerits (a.line + 1)
                fc ls (some a) := by simpa using hx2
            rw [hxe]
            exact h fc a hcand
        · rw [if_neg hd] at hx
          exact hacc x hx
  intro b hb
  exact aux [FitnessClass.Tight, .Decent, .Loose, .VeryLoose] [] (by simp) b hb

theorem tryBreakLoop_forall (P : Breakpoint → Prop) (cfg : Paragraph)
    (node : Node) (atBreak : List Node) (pos : Nat) (sum : Totals)
    (hnew : ∀ (a : Breakpoint) (fc : FitnessClass) (d : Int) (ls : Totals),
      P a → P (.mk pos d (a.line + 1) fc ls (some a))) :
    ∀ (acts : List Breakpoint) (cl : Nat) (cands : Candidates),
      (∀ b ∈ acts, P b) →
      (∀ fc a, (cands.get fc).active = some a → P a) →
      ∀ b ∈ tryBreakLoop cfg node atBreak pos sum cl cands acts, P b := by
  intro acts
  induction acts with
  | nil =>
    intro cl cands _ hcands b hb
    rw [tryBreakLoop] at hb
    refine newBreakpoints_forall P pos _ cands ?_ b hb
    intro fc a ha
    exact hnew a fc _ _ (hcands fc a ha)
  | cons bp rest ih =>
    intro cl cands hacts hcands b hb
    have hbp : P bp := hacts bp (by simp)
    have hrest : ∀ x ∈ rest, P x := fun x hx => hacts x (by simp [hx])
    rw [tryBreakLoop] at hb
    by_cases hline : bp.line = cl
    · rw [if_pos hline] at hb
      rcases List.mem_append.mp hb with hb2 | hb2
      · rw [processActive_fst_sub cfg node sum cl bp cands b hb2]
        exact hbp
      · exact ih cl _ hrest
          (processActive_snd_inv P cfg node sum cl bp cands hcands hbp) b hb2
    · rw [if_neg hline] at hb
      rcases List.mem_append.mp hb with hb2 | hb2
      · refine newBreakpoints_forall P pos _ cands ?_ b hb2
        intro fc a ha
        exact hnew a fc _ _ (hcands fc a ha)
      · rcases List.mem_append.mp hb2 with hb3 | hb3
        · rw [processActive_fst_sub cfg node sum bp.line bp Candidates.init
            b hb3]
          exact hbp
        · refine ih bp.line _ hrest ?_ b hb3
          refine processActive_snd_inv P cfg node sum bp.line bp
            Candidates.init ?_ hbp
          intro fc a ha
          rw [Candidates.get_init] at ha
          simp [Candidate.init] at ha

theorem tryBreak_forall (P : Breakpoint → Prop) (cfg : Paragraph)
    (node : Node) (atBreak : List Node) (pos : Nat) (sum : Totals)
    (hnew : ∀ (a : Breakpoint) (fc : FitnessClass) (d : Int) (ls : Totals),
      P a → P (.mk pos d (a.line + 1) fc ls (some a)))
    (acts : List Breakpoint) (hacts : ∀ b ∈ acts, P b) :
    ∀ b ∈ tryBreak cfg node atBreak pos sum acts, P b := by
  intro b hb
  cases acts with
  | nil => simp [tryBreak] at hb
  | cons bp rest =>
    rw [tryBreak] at hb
    have hbp : P bp := hacts bp (by simp)
    have hrest : ∀ x ∈ rest, P x := fun x hx => hacts x (by simp [hx])
    rcases List.mem_append.mp hb with hb2 | hb2
    · rw [processActive_fst_sub cfg node sum bp.line bp Candidates.init b hb2]
      exact hbp
    · refine tryBreakLoop_forall P cfg node atBreak pos sum hnew rest bp.line _
        hrest ?_ b hb2
      refine processActive_snd_inv P cfg node sum bp.line bp Candidates.init
        ?_ hbp
      intro fc a ha
      rw [Candidates.get_init] at ha
      simp [Candidate.init] at ha

theorem cfbStep_forall (P : Breakpoint → Prop) (cfg : Paragraph)
    (prev : Option Node) (i : Nat) (sum : Totals) (acts : List Breakpoint)
    (node : Node) (rest : List Node)
    (hnew : ∀ (a : Breakpoint) (fc : FitnessClass) (d : Int) (ls : Totals),
      P a → P (.mk i d (a.line + 1) fc ls (some a)))
    (hacts : ∀ b ∈ acts, P b) :
    ∀ b ∈ (cfbStep cfg prev i sum acts node rest).2, P b := by
  intro b hb
  by_cases hs : shouldAttempt prev node = true
  · cases node <;>
      (simp only [cfbStep, hs, if_pos] at hb
       exact tryBreak_forall P cfg _ _ i sum hnew acts hacts b hb)
  · cases node <;>
      (simp only [cfbStep, hs, if_neg, Bool.false_eq_true,
        not_false_eq_true] at hb
       exact hacts b hb)

theorem cfbLoop_forall (P : Breakpoint → Prop) (cfg : Paragraph)
    (hnew : ∀ (a : Breakpoint) (fc : FitnessClass) (d : Int) (ls : Totals)
      (pos : Nat), P a → P (.mk pos d (a.line + 1) fc ls (some a))) :
    ∀ (l : List Node) (prev : Option Node) (i : Nat) (sum : Totals)
      (acts : List Breakpoint), (∀ b ∈ acts, P b) →
      ∀ b ∈ cfbLoop cfg prev i sum acts l, P b := by
  intro l
  induction l with
  | nil => intro prev i sum acts hacts b hb; rw [cfbLoop] at hb; exact hacts b hb
  | cons node rest ih =>
    intro prev i sum acts hacts b hb
    rw [cfbLoop] at hb
    exact ih (some node) (i + 1) _ _
      (cfbStep_forall P cfg prev i sum acts node rest
        (fun a fc d ls ha => hnew a fc d ls i ha) hacts) b hb

theorem goodChain_new (a : Breakpoint) (fc : FitnessClass) (d : Int)
    (ls : Totals) (pos : Nat) (ha : goodChain a) :
    goodChain (.mk pos d (a.line + 1) fc ls (some a)) := by
  rw [goodChain]
  exact ⟨rfl, ha⟩

theorem goodChain_initial : goodChain initialBreakpoint := by
  rw [initialBreakpoint, goodChain]
  exact ⟨rfl, rfl⟩

theorem computeFeasibleBreakpoints_goodChain (cfg : Paragraph)
    (hlist : List Node) :
    ∀ b ∈ computeFeasibleBreakpoints cfg hlist, goodChain b := by
  refine cfbLoop_forall goodChain cfg
    (fun a fc d ls pos ha => goodChain_new a fc d ls pos ha) hlist none 0
    Totals.zero [initialBreakpoint] ?_
  intro b hb
  have : b = initialBreakpoint := by simpa using hb
  rw [this]
  exact goodChain_initial

theorem newBreakpoints_position (pos : Nat) (ls : Totals) (cs : Candidates) :
    ∀ b ∈ newBreakpoints pos ls cs, b.position = pos :=
  newBreakpoints_forall (fun b => b.position = pos) pos ls cs
    (fun _ _ _ => rfl)

theorem tryBreakLoop_position (cfg : Paragraph) (node : Node)
    (atBreak : List Node) (pos : Nat) (sum : Totals)
    (hforce : isForcedLinebreak node = true) :
    ∀ (acts : List Breakpoint) (cl : Nat) (cands : Candidates),
      ∀ b ∈ tryBreakLoop cfg node atBreak pos sum cl cands acts,
        b.position = pos := by
  intro acts
  induction acts with
  | nil =>
    intro cl cands b hb
    rw [tryBreakLoop] at hb
    exact newBreakpoints_position pos _ cands b hb
  | cons bp rest ih =>
    intro cl cands b hb
    rw [tryBreakLoop] at hb
    by_cases hline : bp.line = cl
    · rw [if_pos hline] at hb
      rcases List.mem_append.mp hb with hb2 | hb2
      · rw [processActive_fst_forced cfg node sum cl bp cands hforce] at hb2
        simp at hb2
      · exact ih cl _ b hb2
    · rw [if_neg hline] at hb
      rcases List.mem_append.mp hb with hb2 | hb2
      · exact newBreakpoints_position pos _ cands b hb2
      · rcases List.mem_append.mp hb2 with hb3 | hb3
        · rw [processActive_fst_forced cfg node sum bp.line bp
            Candidates.init hforce] at hb3
          simp at hb3
        · exact ih bp.line _ b hb3

theorem tryBreak_position (cfg : Paragraph) (node : Node) (atBreak : List Node)
    (pos : Nat) (sum : Totals) (hforce : isForcedLinebreak node = true)
    (acts : List Breakpoint) :
    ∀ b ∈ tryBreak cfg node atBreak pos sum acts, b.position = pos := by
  intro b hb
  cases acts with
  | nil => simp [tryBreak] at hb
  | cons bp rest =>
    rw [tryBreak] at hb
    rcases List.mem_append.mp hb with hb2 | hb2
    · rw [processActive_fst_forced cfg node sum bp.line bp
        Candidates.init hforce] at hb2
      simp at hb2
    · exact tryBreakLoop_position cfg node atBreak pos sum hforce rest bp.line
        _ b hb2

theorem cfbLoop_last_forced (cfg : Paragraph) (p : Int)
    (hp : p ≤ -Penalty.Infinity) :
    ∀ (l : List Node) (prev : Option Node) (i : Nat) (sum : Totals)
      (acts : List Breakpoint),
      ∀ b ∈ cfbLoop cfg prev i sum acts (l ++ [.penalty p]),
        b.position = i + l.length := by
  intro l
  induction l with
  | nil =>
    intro prev i sum acts b hb
    simp only [List.nil_append] at hb
    rw [cfbLoop, cfbLoop] at hb
    have hforb : isForbiddenLinebreak (.penalty p) = false := by
      simp only [isForbiddenLinebreak, Penalty.Infinity] at hp ⊢
      simp
      omega
    have hs : shouldAttempt prev (.penalty p) = true := by
      simp [shouldAttempt, hforb]
    have hforce : isForcedLinebreak (.penalty p) = true := by
      simp only [isForcedLinebreak]
      simpa using hp
    simp only [cfbStep, hs, if_pos] at hb
    have := tryBreak_position cfg (.penalty p) [.penalty p] i sum hforce
      acts b hb
    simpa using this
  | cons a l ih =>
    intro prev i sum acts b hb
    rw [List.cons_append, cfbLoop] at hb
    have := ih (some a) (i + 1) _ _ b hb
    rw [this]
    simp
    omega

theorem Breakpoint.chain_cons (pos : Nat) (d : Int) (l : Nat)
    (f : FitnessClass) (t : Totals) (prev : Breakpoint) :
    (Breakpoint.mk pos d l f t (some prev)).chain
      = prev.chain ++ [Breakpoint.mk pos d l f t (some prev)] := by
  rw [Breakpoint.chain]

theorem Breakpoint.chain_getLast : ∀ b : Breakpoint, b.chain.getLast? = some b
  | .mk pos d l f t none => rfl
  | .mk pos d l f t (some prev) => by
    rw [Breakpoint.chain_cons]
    exact List.getLast?_concat _

theorem Breakpoint.chain_spec : ∀ b : Breakpoint, goodChain b →
    b.chain.length = b.line + 1 ∧
    (∀ k bk, b.chain.get? k = some bk → bk.line = k) ∧
    (∃ b0 t2, b.chain = b0 :: t2 ∧ b0.position = 0 ∧ b0.line = 0)
  | .mk pos d l f t none, h => by
    obtain ⟨hpos, hline⟩ : pos = 0 ∧ l = 0 := by
      rw [goodChain] at h
      exact h
    refine ⟨by rw [Breakpoint.chain]; simp [Breakpoint.line, hline], ?_, ?_⟩
    · intro k bk hk
      rw [Breakpoint.chain] at hk
      cases k with
      | zero =>
        have hbk : Breakpoint.mk pos d l f t none = bk := by simpa using hk
        rw [← hbk]
        exact hline
      | succ k2 => simp at hk
    · exact ⟨.mk pos d l f t none, [], by rw [Breakpoint.chain], hpos, hline⟩
  | .mk pos d l f t (some prev), h => by
    obtain ⟨hline, hprev⟩ : l = prev.line + 1 ∧ goodChain prev := by
      rw [goodChain] at h
      exact h
    obtain ⟨ihlen, ihline, b0, t2, ihchain, ihpos0, ihline0⟩ :=
      Breakpoint.chain_spec prev hprev
    refine ⟨?_, ?_, ?_⟩
    · have hacc : (Breakpoint.mk pos d l f t (some prev)).line = l := rfl
      rw [Breakpoint.chain_cons, List.length_append, ihlen, hacc, hline]
      simp
    · intro k bk hk
      rw [Breakpoint.chain_cons] at hk
      by_cases hlt : k < prev.chain.length
      · rw [List.get?_append hlt] at hk
        exact ihline k bk hk
      · have hge : prev.chain.length ≤ k := le_of_not_lt hlt
        rw [List.get?_append_right hge] at hk
        have hk2 : k - prev.chain.length = 0 := by
          by_contra hne
          have : 1 ≤ k - prev.chain.length := Nat.one_le_iff_ne_zero.mpr hne
          rw [List.get?_eq_none.mpr (by simpa using this)] at hk
          simp at hk
        have hbk : Breakpoint.mk pos d l f t (some prev) = bk := by
          rw [hk2] at hk
          simpa using hk
        have hkval : k = prev.chain.length := by omega
        have hacc : (Breakpoint.mk pos d l f t (some prev)).line = l := rfl
        rw [← hbk, hacc, hline, hkval, ihlen]
    · exact ⟨b0, t2 ++ [Breakpoint.mk pos d l f t (some prev)],
        by rw [Breakpoint.chain_cons, ihchain]; simp, ihpos0, ihline0⟩

theorem bestBreakpoint_mem :
    ∀ (l : List Breakpoint) (b : Breakpoint),
      bestBreakpoint b l = b ∨ bestBreakpoint b l ∈ l := by
  intro l
  induction l with
  | nil => intro b; exact Or.inl rfl
  | cons x rest ih =>
    intro b
    rw [bestBreakpoint]
    by_cases hd : x.demerits < b.demerits
    · rw [if_pos hd]
      rcases ih x with h | h
      · exact Or.inr (by rw [h]; simp)
      · exact Or.inr (by simp [h])
    · rw [if_neg hd]
      rcases ih b with h | h
      · exact Or.inl h
      · exact Or.inr (by simp [h])

/-- C2 (amended): every breakpoints sequence a successful
`computeBreakpoints` returns starts at `hlist.begin()` (position 0, line
0), and its k-th element has line k, so consecutive lines increment by
exactly one; when the list is terminated by a forced-break penalty (as
every prepared list is), the last element's position is the index of that
final penalty — the last node, whose successor is `hlist.end()` — not
`hlist.end()` itself. -/
theorem computeBreakpoints_endpoints (cfg : Paragraph) (hlist : List Node)
    (bps : List Breakpoint)
    (hok : computeBreakpoints cfg hlist = .ok bps) :
    (∃ b0 t2, bps = b0 :: t2 ∧ b0.position = 0 ∧ b0.line = 0) ∧
    (∀ k bk, bps.get? k = some bk → bk.line = k) ∧
    (∀ k bk bk1, bps.get? k = some bk → bps.get? (k + 1) = some bk1 →
      bk1.line = bk.line + 1) ∧
    (∀ (l : List Node) (p : Int), hlist = l ++ [.penalty p] →
      p ≤ -Penalty.Infinity →
      ∃ bl, bps.getLast? = some bl ∧ bl.position = l.length) := by
  rcases hcf : computeFeasibleBreakpoints cfg hlist with _ | ⟨b, rest⟩
  · rw [computeBreakpoints, hcf] at hok
    simp at hok
  · rw [computeBreakpoints, hcf] at hok
    have hbps : bps = (bestBreakpoint b rest).chain := by
      have h2 : CppResult.ok (α := List Breakpoint)
          (bestBreakpoint b rest).chain = .ok bps := hok
      injection h2 with h3
      exact h3.symm
    have hmem : bestBreakpoint b rest ∈ b :: rest := by
      rcases bestBreakpoint_mem rest b with h | h
      · rw [h]; simp
      · simp [h]
    have hgood : goodChain (bestBreakpoint b rest) := by
      refine computeFeasibleBreakpoints_goodChain cfg hlist
        (bestBreakpoint b rest) ?_
      rw [hcf]
      exact hmem
    obtain ⟨hlen, hline, b0, t2, hchain, hpos0, hline0⟩ :=
      Breakpoint.chain_spec (bestBreakpoint b rest) hgood
    refine ⟨⟨b0, t2, by rw [hbps, hchain], hpos0, hline0⟩, ?_, ?_, ?_⟩
    · intro k bk hk
      exact hline k bk (by rw [hbps] at hk; exact hk)
    · intro k bk bk1 hk hk1
      have e1 := hline k bk (by rw [hbps] at hk; exact hk)
      have e2 := hline (k + 1) bk1 (by rw [hbps] at hk1; exact hk1)
      omega
    · intro l p heq hp
      have hpos : (bestBreakpoint b rest).position = l.length := by
        have := cfbLoop_last_forced cfg p hp l none 0 Totals.zero
          [initialBreakpoint] (bestBreakpoint b rest)
          (by rw [← computeFeasibleBreakpoints, ← heq, hcf]; exact hmem)
        simpa using this
      refine ⟨bestBreakpoint b rest, ?_, hpos⟩
      rw [hbps]
      exact Breakpoint.chain_getLast (bestBreakpoint b rest)

unseal Rat.add Rat.sub Rat.mul Rat.inv in
/-- C2 counterexample: on the prepared-shape list `[box 10, penalty −∞]`
the breaker succeeds and the last breakpoint's position is the index of
the final forced penalty (1), not `hlist.end()` (index 2 = the list
length). -/
theorem computeBreakpoints_last_position_counterexample :
    computeBreakpoints exCfg exHlistExact
      = .ok [initialBreakpoint, exFinalBp] ∧
    [initialBreakpoint, exFinalBp].getLast? = some exFinalBp ∧
    exFinalBp.position ≠ exHlistExact.length := by
  have h : computeFeasibleBreakpoints exCfg exHlistExact = [exFinalBp] := by
    decide
  refine ⟨?_, rfl, by decide⟩
  rw [computeBreakpoints, h]
  rfl

unseal Rat.add Rat.sub Rat.mul Rat.inv in
theorem computeBreakpoints_endpoints_witness :
    initialBreakpoint.position = 0 ∧ initialBreakpoint.line = 0 ∧
    exFinalBp.position = [Node.box 10].length ∧ exFinalBp.line = 1 := by
  have hcf : computeFeasibleBreakpoints exCfg
      ([Node.box 10] ++ [Node.penalty (-10000)]) = [exFinalBp] := by decide
  have hok : computeBreakpoints exCfg
      ([Node.box 10] ++ [Node.penalty (-10000)])
      = .ok [initialBreakpoint, exFinalBp] := by
    rw [computeBreakpoints, hcf]
    rfl
  have h := computeBreakpoints_endpoints exCfg
    ([Node.box 10] ++ [Node.penalty (-10000)])
    [initialBreakpoint, exFinalBp] hok
  obtain ⟨⟨b0, t2, hc, hb0pos, hb0line⟩, hlines, _, hlast⟩ := h
  obtain ⟨bl, hbl, hblpos⟩ := hlast [Node.box 10] (-10000) rfl (by decide)
  have hb0 : b0 = initialBreakpoint := by
    have := hc
    simp at this
    exact this.1.symm
  have hblv : exFinalBp = bl := by simpa using hbl
  refine ⟨by rw [← hb0]; exact hb0pos, by rw [← hb0]; exact hb0line,
    by rw [hblv]; exact hblpos, ?_⟩
  exact hlines 1 exFinalBp (by rfl)

/-- C9: for every box tree and every partial visitor, `read_hbox_partial`
(resp. `read_vbox_partial`) visits exactly the prefix of the full
traversal's `(box, position)` sequence up to and including the first box
at which the visitor returns `Done`, visits no box after it — a `Done`
inside any nested hbox or vbox short-circuits every enclosing recursion
level — and returns `Done` exactly when such a box exists. -/
theorem partial_traversal_spec (v : LNode → Pos → Bool) (b : LNode) (p : Pos) :
    readHBoxPartial v b p
      = (stopAt v (readHBoxFull b p), hasHit v (readHBoxFull b p)) ∧
    readVBoxPartial v b p
      = (stopAt v (readVBoxFull b p), hasHit v (readVBoxFull b p)) :=
  (partialFull_aux (sizeOf b)).1 b p v le_rfl

end Typeset
